import Mathlib

/-!
Verification development for the 3D CT backprojection engine
(`src/backprojector.c`, `src/backprojector.h`, `src/fileReader.h`).

The C code is shallowly embedded over an arbitrary linear ordered field `K`
(instantiated at `ℚ` for executable witnesses and at `ℝ` where the
trigonometric tables are involved).  Machine doubles are modelled as exact
field elements; C casts from floating point to `int` are modelled by
truncation toward zero (`truncToInt`); C integer division on non-negative
operands is ordinary integer division.  The square root used by
`computeAbsorption` is kept abstract as a field `sqrtFn` of the geometry
record, constrained only where a theorem needs it (the C library `sqrt`
returns a non-negative result on non-negative input).
-/

namespace CTBackprojection

variable {K : Type} [LinearOrderedField K] [FloorRing K]

/-- Compile-time geometry constants of `backprojector.h` (`VOXEL_SIZE`,
`N_VOXELS`, `PIXEL_SIZE`, `DOD`, `DOS`) together with the tables produced by
`initTables` (`sinTable`, `cosTable`) and the abstract square root used by
`computeAbsorption`. -/
structure Geom (K : Type) [LinearOrderedField K] where
  voxelSize : Fin 3 → K
  nVoxels : Fin 3 → ℕ
  pixelSize : ℤ
  dod : K
  dos : K
  sinT : ℕ → K
  cosT : ℕ → K
  sqrtFn : K → K

/-- Number of planes per axis: `N_PLANES[a] = N_VOXELS[a] + 1`. -/
def nPlanes (g : Geom K) (a : Fin 3) : ℕ := g.nVoxels a + 1

/-- First plane position per axis, as computed by `initTables`:
`firstPlane[axis] = -(VOXEL_SIZE[axis] * N_VOXELS[axis]) / 2`. -/
def firstPlane (g : Geom K) (a : Fin 3) : K :=
  -(g.voxelSize a * (g.nVoxels a : K)) / 2

/-- Last plane position per axis, as computed by `initTables`:
`lastPlane[axis] = -firstPlane[axis]`. -/
def lastPlane (g : Geom K) (a : Fin 3) : K := -(firstPlane g a)

/-- The `point3D` union of the C code, with the `coordinates[]` array view
provided by `Point3.coord`. -/
structure Point3 (K : Type) where
  x : K
  y : K
  z : K

/-- Array view `point.coordinates[axis]` of the `point3D` union. -/
def Point3.coord (p : Point3 K) (a : Fin 3) : K :=
  match a with
  | 0 => p.x
  | 1 => p.y
  | 2 => p.z

/-- The `ray` struct: source point and detector-pixel point. -/
structure Ray (K : Type) where
  source : Point3 K
  pixel : Point3 K

/-- The `projection` struct of `backprojector.h`.  The pixel array is
modelled as a total function from flat indices. -/
structure Projection (K : Type) where
  index : ℕ
  angle : K
  minVal : K
  maxVal : K
  nSidePixels : ℕ
  pixels : ℕ → K

/-- The `volume` struct.  The `coefficients` array is modelled as a total
function from (possibly negative) flat indices, so that the embedding can
talk about out-of-range accesses instead of making them unrepresentable. -/
structure Volume (K : Type) where
  nVoxelsX : ℕ
  nVoxelsY : ℕ
  nVoxelsZ : ℕ
  voxelSizeX : K
  voxelSizeY : K
  voxelSizeZ : K
  coefficients : ℤ → K

/-- C cast from a floating-point value to `int`: truncation toward zero. -/
def truncToInt (q : K) : ℤ := if 0 ≤ q then ⌊q⌋ else ⌈q⌉

/-- `getSourcePosition`: source of the rays of projection `i`, read off the
precomputed tables. -/
def getSourcePosition (g : Geom K) (i : ℕ) : Point3 K :=
  { x := -(g.sinT i) * g.dos
  , y := g.cosT i * g.dos
  , z := 0 }

/-- The `dFirstPixel` expression of `getPixelPosition`.  In the C source
`projection->nSidePixels * PIXEL_SIZE / 2 - PIXEL_SIZE / 2` is evaluated in
`int` arithmetic (both operands are `int`), so both divisions truncate. -/
def halfOffset (n : ℕ) (ps : ℤ) : ℤ := (n * ps) / 2 - ps / 2

/-- `getPixelPosition`: centre of the pixel at (`row`, `col`) of the
detector of the given projection. -/
def getPixelPosition (g : Geom K) (p : Projection K) (row col : ℕ) : Point3 K :=
  let dFirstPixel : ℤ := halfOffset p.nSidePixels g.pixelSize
  let sinAngle := g.sinT p.index
  let cosAngle := g.cosT p.index
  { x := g.dod * sinAngle + cosAngle * (((col : ℤ) * g.pixelSize - dFirstPixel : ℤ) : K)
  , y := -g.dod * cosAngle + sinAngle * (((col : ℤ) * g.pixelSize - dFirstPixel : ℤ) : K)
  , z := (((row : ℤ) * g.pixelSize - dFirstPixel : ℤ) : K) }

/-- `getParallelAxis`: the first axis on which source and pixel coordinates
coincide, or `none` (the C `NONE`) when there is no such axis.  Note that
the C function returns as soon as one axis matches. -/
def getParallelAxis (r : Ray K) : Option (Fin 3) :=
  if r.source.x = r.pixel.x then some 0
  else if r.source.y = r.pixel.y then some 1
  else if r.source.z = r.pixel.z then some 2
  else none

/-- `getPlanePosition`: Siddon equation (3). -/
def getPlanePosition (g : Geom K) (a : Fin 3) (index : ℤ) : K :=
  firstPlane g a + (index : K) * g.voxelSize a

/-- `getSidesIntersections`: Siddon equation (4).  The C function writes the
two entries `intersections[axis][0..1]` for every axis other than
`parallelTo`; an axis that is skipped keeps its stack garbage, modelled here
by `none`. -/
def getSidesIntersections (g : Geom K) (r : Ray K) (parallelTo : Option (Fin 3)) :
    Fin 3 → Option (K × K) := fun a =>
  if some a = parallelTo then none
  else
    some ((firstPlane g a - r.source.coord a) / (r.pixel.coord a - r.source.coord a),
          (lastPlane g a - r.source.coord a) / (r.pixel.coord a - r.source.coord a))

/-- `getAMin`: Siddon equation (5), folding `fmax`/`fmin` over the
non-parallel axes starting from `0.0`.  The `none` branch corresponds to the
`axis == parallelTo` entry, which the C loop never reads. -/
def getAMin (inter : Fin 3 → Option (K × K)) (parallelTo : Option (Fin 3)) : K :=
  (List.finRange 3).foldl
    (fun m a =>
      if some a = parallelTo then m
      else
        match inter a with
        | none => m
        | some pr => max m (min pr.1 pr.2)) 0

/-- `getAMax`: Siddon equation (5), folding from `1.0`. -/
def getAMax (inter : Fin 3 → Option (K × K)) (parallelTo : Option (Fin 3)) : K :=
  (List.finRange 3).foldl
    (fun m a =>
      if some a = parallelTo then m
      else
        match inter a with
        | none => m
        | some pr => min m (max pr.1 pr.2)) 1

/-- `getPlanesRanges` for one axis: Siddon equation (6).  `ceil` and `floor`
return exact integral doubles which the C code then assigns to `int`s, so
the result is `(minIndex, maxIndex)` as mathematical integers. -/
def planeRange (g : Geom K) (r : Ray K) (a : Fin 3) (aMin aMax : K) : ℤ × ℤ :=
  let s := r.source.coord a
  let d := r.pixel.coord a - s
  if 0 ≤ d then
    ((nPlanes g a : ℤ) - ⌈(lastPlane g a - aMin * d - s) / g.voxelSize a⌉,
     ⌊(s + aMax * d - firstPlane g a) / g.voxelSize a⌋)
  else
    ((nPlanes g a : ℤ) - ⌈(lastPlane g a - aMax * d - s) / g.voxelSize a⌉,
     ⌊(s + aMin * d - firstPlane g a) / g.voxelSize a⌋)

/-- Incrementally built arithmetic progression: `arithList a0 step n` is the
list `a[0..n)` with `a[0] = a0` and `a[i] = a[i-1] + step`, exactly the
accumulation loop of `getAllIntersections` in exact arithmetic. -/
def arithList (a0 step : K) : ℕ → List K
  | 0 => []
  | n + 1 => a0 :: arithList (a0 + step) step n

/-- `getAllIntersections` for one axis: Siddon equation (7).  When
`minIndex >= maxIndex` the C loop leaves the axis array unused (its declared
size is `0`); when `d = 0` neither branch runs, which can only happen with
an empty range, so the empty list is the faithful result in every case the
program reads. -/
def axisAlphas (g : Geom K) (r : Ray K) (aMin aMax : K) (a : Fin 3) : List K :=
  let s := r.source.coord a
  let d := r.pixel.coord a - s
  let mm := planeRange g r a aMin aMax
  if mm.1 ≥ mm.2 then []
  else if 0 < d then
    arithList ((getPlanePosition g a mm.1 - s) / d) (g.voxelSize a / d) (mm.2 - mm.1).toNat
  else if d < 0 then
    arithList ((getPlanePosition g a mm.2 - s) / d) (-(g.voxelSize a / d)) (mm.2 - mm.1).toNat
  else []

/-- Two-pointer merge of two lists, the behaviour of the pairwise `while`
loops of `mergeIntersections` (ties taken from the first list, then the
leftovers flushed). -/
def mergeTwo {α : Type} [LinearOrder α] : List α → List α → List α
  | [], ys => ys
  | x :: xs, [] => x :: xs
  | x :: xs, y :: ys =>
    if x ≤ y then x :: mergeTwo xs (y :: ys) else y :: mergeTwo (x :: xs) ys
termination_by xs ys => xs.length + ys.length

/-- `mergeIntersections`: the three-pointer merge loop of the C code
followed by its pairwise and single flush loops. -/
def mergeIntersections {α : Type} [LinearOrder α] : List α → List α → List α → List α
  | [], ys, zs => mergeTwo ys zs
  | x :: xs, [], zs => mergeTwo (x :: xs) zs
  | x :: xs, y :: ys, [] => mergeTwo (x :: xs) (y :: ys)
  | x :: xs, y :: ys, z :: zs =>
    if x ≤ y ∧ x ≤ z then x :: mergeIntersections xs (y :: ys) (z :: zs)
    else if y ≤ x ∧ y ≤ z then y :: mergeIntersections (x :: xs) ys (z :: zs)
    else z :: mergeIntersections (x :: xs) (y :: ys) zs
termination_by xs ys zs => xs.length + ys.length + zs.length

/-- `aMin` of a ray as computed in `computeBackProjection` (side
intersections restricted to the non-parallel axes). -/
def rayAMin (g : Geom K) (r : Ray K) : K :=
  getAMin (getSidesIntersections g r (getParallelAxis r)) (getParallelAxis r)

/-- `aMax` of a ray as computed in `computeBackProjection`. -/
def rayAMax (g : Geom K) (r : Ray K) : K :=
  getAMax (getSidesIntersections g r (getParallelAxis r)) (getParallelAxis r)

/-- The merged α array `aMerged` handed to `computeAbsorption`: the
three-way merge of the per-axis intersection lists.  Note the C code does
not prepend `aMin` or append `aMax`. -/
def mergedList (g : Geom K) (r : Ray K) : List K :=
  mergeIntersections
    (axisAlphas g r (rayAMin g r) (rayAMax g r) 0)
    (axisAlphas g r (rayAMin g r) (rayAMax g r) 1)
    (axisAlphas g r (rayAMin g r) (rayAMax g r) 2)

/-- The voxel index triple `(voxelX, voxelY, voxelZ)` computed by
`computeAbsorption` for the segment between two consecutive α values
(`Siddon` equations (12) and (13)); the C double-to-int casts truncate. -/
def segTriple (g : Geom K) (r : Ray K) (aPrev aCur : K) : ℤ × ℤ × ℤ :=
  let aMid := (aCur + aPrev) / 2
  let v : Fin 3 → ℤ := fun a =>
    truncToInt ((r.source.coord a + aMid * (r.pixel.coord a - r.source.coord a)
        - firstPlane g a) / g.voxelSize a)
  (v 0, v 1, v 2)

/-- The flat accumulator index of `computeAbsorption`, line
`voxelY * N_VOXELS_X * N_VOXELS_Z + voxelZ * N_VOXELS_Z + voxelX`. -/
def voxelIndexOf (g : Geom K) (t : ℤ × ℤ × ℤ) : ℤ :=
  t.2.1 * ((g.nVoxels 0 : ℤ) * (g.nVoxels 2 : ℤ)) + t.2.2 * (g.nVoxels 2 : ℤ) + t.1

/-- The voxel triples of all segments of an α list, i.e. the indices
`computeAbsorption` touches on consecutive pairs `(a[i-1], a[i])`. -/
def segmentVoxelTriples (g : Geom K) (r : Ray K) (aList : List K) : List (ℤ × ℤ × ℤ) :=
  (aList.zip aList.tail).map fun pr => segTriple g r pr.1 pr.2

/-- The deposits (`voxelIndex`, `voxelAbsorptionValue`) performed by one
call of `computeAbsorption`: Siddon equations (10)–(14). -/
def segmentDeposits (g : Geom K) (r : Ray K) (aList : List K)
    (pixelValue minVal maxVal : K) : List (ℤ × K) :=
  let dx := r.pixel.x - r.source.x
  let dy := r.pixel.y - r.source.y
  let dz := r.pixel.z - r.source.z
  let d12 := g.sqrtFn (dx * dx + dy * dy + dz * dz)
  (aList.zip aList.tail).map fun pr =>
    let segmentLength := d12 * (pr.2 - pr.1)
    let normalizedPixelValue := (pixelValue - minVal) / (maxVal - minVal)
    let normalizedSegmentLength := segmentLength / (g.dod + g.dos)
    (voxelIndexOf g (segTriple g r pr.1 pr.2),
     normalizedPixelValue * normalizedSegmentLength)

/-- One atomic accumulator update
`volume->coefficients[voxelIndex] += voxelAbsorptionValue`. -/
def addDeposit (v : Volume K) (d : ℤ × K) : Volume K :=
  { v with coefficients := fun i => if i = d.1 then v.coefficients i + d.2 else v.coefficients i }

/-- The ray of pixel (`row`, `col`) of a projection, as built in the body of
the `computeBackProjection` double loop. -/
def rayAt (g : Geom K) (p : Projection K) (row col : ℕ) : Ray K :=
  { source := getSourcePosition g p.index, pixel := getPixelPosition g p row col }

/-- The deposits produced for one pixel of `computeBackProjection`: empty
when `aMin >= aMax` (the `continue` branch), and one `computeAbsorption`
call on the merged α list otherwise. -/
def pixelDeposits (g : Geom K) (p : Projection K) (row col : ℕ) : List (ℤ × K) :=
  let r := rayAt g p row col
  if rayAMin g r ≥ rayAMax g r then []
  else
    segmentDeposits g r (mergedList g r)
      (p.pixels (row * p.nSidePixels + col)) p.minVal p.maxVal

/-- The effect of one pixel of the `computeBackProjection` double loop on
the volume. -/
def processPixel (g : Geom K) (p : Projection K) (row col : ℕ) (v : Volume K) : Volume K :=
  (pixelDeposits g p row col).foldl addDeposit v

/-- `computeBackProjection`: iterate over every (row, col) pixel of the
projection and accumulate the absorption deposits into the volume. -/
def computeBackProjection (g : Geom K) (p : Projection K) (v : Volume K) : Volume K :=
  (List.range p.nSidePixels).foldl
    (fun acc row =>
      (List.range p.nSidePixels).foldl
        (fun acc2 col => processPixel g p row col acc2) acc) v

/-- State-transformer view of a `computeBackProjection` call: the projection
is passed through a `const` pointer and never written, the volume is the
only mutable state. -/
def backprojectionStep (g : Geom K) (s : Projection K × Volume K) :
    Projection K × Volume K :=
  (s.1, computeBackProjection g s.1 s.2)

/-- The zero-initialised (`calloc`) volume built in `main`. -/
def zeroVolume (g : Geom K) : Volume K :=
  { nVoxelsX := g.nVoxels 0
  , nVoxelsY := g.nVoxels 1
  , nVoxelsZ := g.nVoxels 2
  , voxelSizeX := g.voxelSize 0
  , voxelSizeY := g.voxelSize 1
  , voxelSizeZ := g.voxelSize 2
  , coefficients := fun _ => 0 }

/-- The main reconstruction loop: fold `computeBackProjection` over the read
projections, starting from the zero-initialised volume. -/
def reconstruct (g : Geom K) (ps : List (Projection K)) : Volume K :=
  ps.foldl (fun v p => computeBackProjection g p v) (zeroVolume g)

/-- The geometry constants of the default build of `backprojector.h`:
`VOXEL_SIZE = 100`, `VOXEL_MATRIX_SIZE = 100000` (hence `N_VOXELS = 1000`
per axis), `PIXEL_SIZE = 85`, `DOD = 150000`, `DOS = 600000`, instantiated
over `ℚ`.  The trigonometric tables and the square root have no exact
rational counterpart; they are given inert stand-ins here, and no theorem
stated over this geometry reads them unless it supplies its own values. -/
def programGeomQ : Geom ℚ :=
  { voxelSize := fun _ => 100
  , nVoxels := fun _ => 1000
  , pixelSize := 85
  , dod := 150000
  , dos := 600000
  , sinT := fun _ => 0
  , cosT := fun _ => 0
  , sqrtFn := fun q => q }

/-- `N_THETA` of `backprojector.h`: `AP / STEP_ANGLE + 1` with `AP = 360`
and `STEP_ANGLE = 15`, i.e. 25 projections. -/
def nTheta : ℕ := 360 / 15 + 1

/-- C `fmod(x, y) = x - trunc(x / y) * y` (result carries the sign of `x`),
in exact arithmetic. -/
def fmodQ (x y : ℚ) : ℚ := x - y * (truncToInt (x / y) : ℚ)

/-- The projection index stored by `readProjectionPGM` / `readProjectionDAT`
(`fileReader.h`): the angle is first normalised by
`angle = fmod(angle + 360, 360)` and then
`index = (int)((angle + 180) / 360 * N_THETA) % N_THETA`, where the C `%`
on `int` is the truncated remainder. -/
def readIndex (angle : ℚ) : ℤ :=
  (truncToInt ((fmodQ (angle + 360) 360 + 180) / 360 * (nTheta : ℚ))).tmod (nTheta : ℤ)

/-- Modelled from the spec: the projection angle normalised modulo 360
degrees, i.e. the representative of `angle` in `[0, 360)`. -/
def angleNormalised (angle : ℚ) : ℚ := angle - 360 * (⌊angle / 360⌋ : ℚ)

/-- The flat voxel index layout of the specification:
`idx = y * (Nx * Nz) + z * Nz + x`. -/
def idxLayout (nx nz x y z : ℕ) : ℕ := y * (nx * nz) + z * nz + x

/-- Decoding of the flat index layout for the program's voxel counts
(`Nx = Nz = 1000`, fastest axis X, then Z, then Y). -/
def idxDecode (i : ℕ) : ℕ × ℕ × ℕ := (i % 1000, i / (1000 * 1000), i / 1000 % 1000)

/-- The angle `θᵢ` of projection `i` as computed by `initTables`:
`AP / 2 + i * STEP_ANGLE` in exact `int` arithmetic (`= 180 + 15 i`
degrees), converted to radians. -/
noncomputable def thetaOf (i : ℕ) : ℝ := ((180 + 15 * i : ℕ) : ℝ) * Real.pi / 180

/-- The `sinTable` filled by `initTables`, in real semantics. -/
noncomputable def sinTableR (i : ℕ) : ℝ := Real.sin (thetaOf i)

/-- The `cosTable` filled by `initTables`, in real semantics. -/
noncomputable def cosTableR (i : ℕ) : ℝ := Real.cos (thetaOf i)

/-- The program geometry over `ℝ`, with the genuine trigonometric tables
and square root. -/
noncomputable def programGeomR : Geom ℝ :=
  { voxelSize := fun _ => 100
  , nVoxels := fun _ => 1000
  , pixelSize := 85
  , dod := 150000
  , dos := 600000
  , sinT := sinTableR
  , cosT := cosTableR
  , sqrtFn := Real.sqrt }

/-- Modelled from the spec (§4.2): the pixel position with the half-width
offset `h = N * pixelSize / 2 - pixelSize / 2` computed in real,
non-truncating arithmetic. -/
def specPixelPosition (g : Geom K) (p : Projection K) (row col : ℕ) : Point3 K :=
  let h : K := (p.nSidePixels : K) * (g.pixelSize : K) / 2 - (g.pixelSize : K) / 2
  { x := g.dod * g.sinT p.index + g.cosT p.index * (-h + (col : K) * (g.pixelSize : K))
  , y := -g.dod * g.cosT p.index + g.sinT p.index * (-h + (col : K) * (g.pixelSize : K))
  , z := -h + (row : K) * (g.pixelSize : K) }

/-- A projection with a 2×2 detector over `ℝ`, used to exhibit the
truncating `dFirstPixel` arithmetic. -/
noncomputable def projTwoR : Projection ℝ :=
  { index := 0, angle := 0, minVal := 0, maxVal := 1, nSidePixels := 2, pixels := fun _ => 0 }

/-! ### Properties of the merge loops -/

theorem mergeTwo_perm {α : Type} [LinearOrder α] :
    ∀ xs ys : List α, List.Perm (mergeTwo xs ys) (xs ++ ys)
  | [], ys => by simp [mergeTwo]
  | x :: xs, [] => by simp [mergeTwo]
  | x :: xs, y :: ys => by
    rw [mergeTwo]
    by_cases h : x ≤ y
    · rw [if_pos h]
      exact (mergeTwo_perm xs (y :: ys)).cons x
    · rw [if_neg h]
      exact ((mergeTwo_perm (x :: xs) ys).cons y).trans List.perm_middle.symm
termination_by xs ys => xs.length + ys.length

theorem mergeTwo_sorted {α : Type} [LinearOrder α] :
    ∀ xs ys : List α, xs.Sorted (· ≤ ·) → ys.Sorted (· ≤ ·) →
      (mergeTwo xs ys).Sorted (· ≤ ·)
  | [], ys, _, hy => by simpa [mergeTwo] using hy
  | x :: xs, [], hx, _ => by simpa [mergeTwo] using hx
  | x :: xs, y :: ys, hx, hy => by
    rw [mergeTwo]
    rcases List.sorted_cons.mp hx with ⟨hxall, hxs⟩
    rcases List.sorted_cons.mp hy with ⟨hyall, hys⟩
    by_cases h : x ≤ y
    · rw [if_pos h]
      refine List.sorted_cons.mpr ⟨?_, mergeTwo_sorted xs (y :: ys) hxs hy⟩
      intro b hb
      rcases List.mem_append.mp ((mergeTwo_perm xs (y :: ys)).mem_iff.mp hb) with hbx | hby
      · exact hxall b hbx
      · rcases List.mem_cons.mp hby with rfl | hby'
        · exact h
        · exact le_trans h (hyall b hby')
    · rw [if_neg h]
      have hyx : y ≤ x := le_of_not_le h
      refine List.sorted_cons.mpr ⟨?_, mergeTwo_sorted (x :: xs) ys hx hys⟩
      intro b hb
      rcases List.mem_append.mp ((mergeTwo_perm (x :: xs) ys).mem_iff.mp hb) with hbx | hby
      · rcases List.mem_cons.mp hbx with rfl | hbx'
        · exact hyx
        · exact le_trans hyx (hxall b hbx')
      · exact hyall b hby
termination_by xs ys => xs.length + ys.length

theorem mergeIntersections_perm {α : Type} [LinearOrder α] :
    ∀ xs ys zs : List α, List.Perm (mergeIntersections xs ys zs) (xs ++ ys ++ zs)
  | [], ys, zs => by simpa [mergeIntersections] using mergeTwo_perm ys zs
  | x :: xs, [], zs => by simpa [mergeIntersections] using mergeTwo_perm (x :: xs) zs
  | x :: xs, y :: ys, [] => by simpa [mergeIntersections] using mergeTwo_perm (x :: xs) (y :: ys)
  | x :: xs, y :: ys, z :: zs => by
    rw [mergeIntersections]
    by_cases h1 : x ≤ y ∧ x ≤ z
    · rw [if_pos h1]
      exact (mergeIntersections_perm xs (y :: ys) (z :: zs)).cons x
    · rw [if_neg h1]
      by_cases h2 : y ≤ x ∧ y ≤ z
      · rw [if_pos h2]
        have e : (x :: xs) ++ (y :: ys) ++ (z :: zs) = (x :: xs) ++ y :: (ys ++ z :: zs) := by
          simp
        rw [e]
        refine ((mergeIntersections_perm (x :: xs) ys (z :: zs)).cons y).trans ?_
        have e2 : (x :: xs) ++ ys ++ (z :: zs) = (x :: xs) ++ (ys ++ z :: zs) := by simp
        rw [e2]
        exact List.perm_middle.symm
      · rw [if_neg h2]
        exact ((mergeIntersections_perm (x :: xs) (y :: ys) zs).cons z).trans
          List.perm_middle.symm
termination_by xs ys zs => xs.length + ys.length + zs.length

theorem mergeIntersections_sorted {α : Type} [LinearOrder α] :
    ∀ xs ys zs : List α, xs.Sorted (· ≤ ·) → ys.Sorted (· ≤ ·) → zs.Sorted (· ≤ ·) →
      (mergeIntersections xs ys zs).Sorted (· ≤ ·)
  | [], ys, zs, _, hy, hz => by simpa [mergeIntersections] using mergeTwo_sorted ys zs hy hz
  | x :: xs, [], zs, hx, _, hz => by
    simpa [mergeIntersections] using mergeTwo_sorted (x :: xs) zs hx hz
  | x :: xs, y :: ys, [], hx, hy, _ => by
    simpa [mergeIntersections] using mergeTwo_sorted (x :: xs) (y :: ys) hx hy
  | x :: xs, y :: ys, z :: zs, hx, hy, hz => by
    rw [mergeIntersections]
    rcases List.sorted_cons.mp hx with ⟨hxall, hxs⟩
    rcases List.sorted_cons.mp hy with ⟨hyall, hys⟩
    rcases List.sorted_cons.mp hz with ⟨hzall, hzs⟩
    by_cases h1 : x ≤ y ∧ x ≤ z
    · rw [if_pos h1]
      refine List.sorted_cons.mpr
        ⟨?_, mergeIntersections_sorted xs (y :: ys) (z :: zs) hxs hy hz⟩
      intro b hb
      have hb' := (mergeIntersections_perm xs (y :: ys) (z :: zs)).mem_iff.mp hb
      rcases List.mem_append.mp hb' with hb2 | hbz
      · rcases List.mem_append.mp hb2 with hbx | hby
        · exact hxall b hbx
        · rcases List.mem_cons.mp hby with rfl | hby'
          · exact h1.1
          · exact le_trans h1.1 (hyall b hby')
      · rcases List.mem_cons.mp hbz with rfl | hbz'
        · exact h1.2
        · exact le_trans h1.2 (hzall b hbz')
    · rw [if_neg h1]
      by_cases h2 : y ≤ x ∧ y ≤ z
      · rw [if_pos h2]
        refine List.sorted_cons.mpr
          ⟨?_, mergeIntersections_sorted (x :: xs) ys (z :: zs) hx hys hz⟩
        intro b hb
        have hb' := (mergeIntersections_perm (x :: xs) ys (z :: zs)).mem_iff.mp hb
        rcases List.mem_append.mp hb' with hb2 | hbz
        · rcases List.mem_append.mp hb2 with hbx | hby
          · rcases List.mem_cons.mp hbx with rfl | hbx'
            · exact h2.1
            · exact le_trans h2.1 (hxall b hbx')
          · exact hyall b hby
        · rcases List.mem_cons.mp hbz with rfl | hbz'
          · exact h2.2
          · exact le_trans h2.2 (hzall b hbz')
      · rw [if_neg h2]
        have hzx : z ≤ x ∧ z ≤ y := by
          rcases le_total x y with hxy | hyx
          · have hzx' : z < x := lt_of_not_le fun hxz => h1 ⟨hxy, hxz⟩
            exact ⟨le_of_lt hzx', le_trans (le_of_lt hzx') hxy⟩
          · have hzy' : z < y := lt_of_not_le fun hyz => h2 ⟨hyx, hyz⟩
            exact ⟨le_trans (le_of_lt hzy') hyx, le_of_lt hzy'⟩
        refine List.sorted_cons.mpr
          ⟨?_, mergeIntersections_sorted (x :: xs) (y :: ys) zs hx hy hzs⟩
        intro b hb
        have hb' := (mergeIntersections_perm (x :: xs) (y :: ys) zs).mem_iff.mp hb
        rcases List.mem_append.mp hb' with hb2 | hbz
        · rcases List.mem_append.mp hb2 with hbx | hby
          · rcases List.mem_cons.mp hbx with rfl | hbx'
            · exact hzx.1
            · exact le_trans hzx.1 (hxall b hbx')
          · rcases List.mem_cons.mp hby with rfl | hby'
            · exact hzx.2
            · exact le_trans hzx.2 (hyall b hby')
        · exact hzall b hbz
termination_by xs ys zs => xs.length + ys.length + zs.length

/-! ### Sortedness of the per-axis and merged α lists -/

theorem arithList_head_le (step : K) (hstep : 0 ≤ step) :
    ∀ (n : ℕ) (a0 b : K), b ∈ arithList a0 step n → a0 ≤ b
  | 0, a0, b, hb => by simp [arithList] at hb
  | n + 1, a0, b, hb => by
    rcases List.mem_cons.mp (by simpa [arithList] using hb) with rfl | hb'
    · exact le_refl b
    · exact le_trans (by linarith) (arithList_head_le step hstep n (a0 + step) b hb')

theorem arithList_sorted (step : K) (hstep : 0 ≤ step) :
    ∀ (n : ℕ) (a0 : K), (arithList a0 step n).Sorted (· ≤ ·)
  | 0, a0 => by simp [arithList]
  | n + 1, a0 => by
    rw [arithList]
    refine List.sorted_cons.mpr ⟨?_, arithList_sorted step hstep n (a0 + step)⟩
    intro b hb
    exact le_trans (by linarith) (arithList_head_le step hstep n (a0 + step) b hb)

theorem axisAlphas_sorted (g : Geom K) (r : Ray K) (aMin aMax : K) (a : Fin 3)
    (hvs : 0 < g.voxelSize a) : (axisAlphas g r aMin aMax a).Sorted (· ≤ ·) := by
  unfold axisAlphas
  dsimp only
  split_ifs with h1 h2 h3
  · simp
  · exact arithList_sorted _ (le_of_lt (div_pos hvs h2)) _ _
  · exact arithList_sorted _
      (le_of_lt (neg_pos.mpr (div_neg_of_pos_of_neg hvs h3))) _ _
  · simp

theorem mergedList_sorted (g : Geom K) (r : Ray K) (hvs : ∀ a, 0 < g.voxelSize a) :
    (mergedList g r).Sorted (· ≤ ·) :=
  mergeIntersections_sorted _ _ _
    (axisAlphas_sorted g r _ _ 0 (hvs 0))
    (axisAlphas_sorted g r _ _ 1 (hvs 1))
    (axisAlphas_sorted g r _ _ 2 (hvs 2))

theorem sorted_zip_tail {α : Type} [Preorder α] :
    ∀ l : List α, l.Sorted (· ≤ ·) → ∀ pr ∈ l.zip l.tail, pr.1 ≤ pr.2
  | [], _, pr, hpr => by simp at hpr
  | [a], _, pr, hpr => by simp at hpr
  | a :: b :: t, h, pr, hpr => by
    rw [List.tail_cons, List.zip_cons_cons] at hpr
    rcases List.mem_cons.mp hpr with rfl | hpr'
    · exact (List.sorted_cons.mp h).1 b (List.mem_cons_self b t)
    · exact sorted_zip_tail (b :: t) (List.sorted_cons.mp h).2 pr hpr'

/-! ### Monotonicity of the accumulator updates -/

theorem addDeposit_le (v : Volume K) (d : ℤ × K) (hd : 0 ≤ d.2) (i : ℤ) :
    v.coefficients i ≤ (addDeposit v d).coefficients i := by
  unfold addDeposit
  dsimp only
  by_cases h : i = d.1 <;> simp [h] <;> linarith

theorem foldl_addDeposit_le :
    ∀ (ds : List (ℤ × K)) (v : Volume K), (∀ d ∈ ds, 0 ≤ d.2) → ∀ i : ℤ,
      v.coefficients i ≤ (ds.foldl addDeposit v).coefficients i
  | [], _, _, _ => le_refl _
  | d :: ds, v, h, i => by
    rw [List.foldl_cons]
    exact le_trans (addDeposit_le v d (h d (List.mem_cons_self d ds)) i)
      (foldl_addDeposit_le ds (addDeposit v d)
        (fun d' hd' => h d' (List.mem_cons_of_mem d hd')) i)

theorem foldl_coefficients_le {β : Type} (f : Volume K → β → Volume K) :
    ∀ (l : List β), (∀ v b, b ∈ l → ∀ i : ℤ, v.coefficients i ≤ (f v b).coefficients i) →
      ∀ (v : Volume K) (i : ℤ), v.coefficients i ≤ (l.foldl f v).coefficients i
  | [], _, _, _ => le_refl _
  | b :: bs, h, v, i => by
    rw [List.foldl_cons]
    exact le_trans (h v b (List.mem_cons_self b bs) i)
      (foldl_coefficients_le f bs
        (fun v' b' hb' => h v' b' (List.mem_cons_of_mem b hb')) (f v b) i)

/-- Non-negativity of every value deposited by one `computeAbsorption` call,
from a non-decreasing α list, a pixel value within `[minVal, maxVal]` with
`maxVal > minVal`, positive total distance `DOD + DOS`, and a square root
that is non-negative on non-negative input. -/
theorem segmentDeposits_nonneg (g : Geom K) (r : Ray K) (aList : List K)
    (pv mn mx : K) (hsorted : aList.Sorted (· ≤ ·)) (hmn : mn ≤ pv) (hmx : mn < mx)
    (hdd : 0 < g.dod + g.dos) (hsq : ∀ q : K, 0 ≤ q → 0 ≤ g.sqrtFn q) :
    ∀ d ∈ segmentDeposits g r aList pv mn mx, 0 ≤ d.2 := by
  intro d hd
  unfold segmentDeposits at hd
  simp only [List.mem_map] at hd
  obtain ⟨pr, hpr, rfl⟩ := hd
  have h1 : pr.1 ≤ pr.2 := sorted_zip_tail aList hsorted pr hpr
  have hd12 : 0 ≤ g.sqrtFn ((r.pixel.x - r.source.x) * (r.pixel.x - r.source.x) +
      (r.pixel.y - r.source.y) * (r.pixel.y - r.source.y) +
      (r.pixel.z - r.source.z) * (r.pixel.z - r.source.z)) :=
    hsq _ (by
      have h1 := mul_self_nonneg (r.pixel.x - r.source.x)
      have h2 := mul_self_nonneg (r.pixel.y - r.source.y)
      have h3 := mul_self_nonneg (r.pixel.z - r.source.z)
      linarith)
  have hnpv : 0 ≤ (pv - mn) / (mx - mn) := div_nonneg (by linarith) (by linarith)
  exact mul_nonneg hnpv
    (div_nonneg (mul_nonneg hd12 (by linarith)) (le_of_lt hdd))

/-! ### Shape preservation (frame) lemmas -/

/-- The non-`coefficients` fields of a volume, i.e. everything a
`computeBackProjection` call may not change. -/
def volShape (v : Volume K) : ℕ × ℕ × ℕ × K × K × K :=
  (v.nVoxelsX, v.nVoxelsY, v.nVoxelsZ, v.voxelSizeX, v.voxelSizeY, v.voxelSizeZ)

theorem volShape_addDeposit (v : Volume K) (d : ℤ × K) :
    volShape (addDeposit v d) = volShape v := rfl

theorem volShape_foldl {β : Type} (f : Volume K → β → Volume K)
    (hf : ∀ v b, volShape (f v b) = volShape v) :
    ∀ (l : List β) (v : Volume K), volShape (l.foldl f v) = volShape v
  | [], _ => rfl
  | b :: bs, v => by
    rw [List.foldl_cons, volShape_foldl f hf bs (f v b), hf]

theorem volShape_processPixel (g : Geom K) (p : Projection K) (row col : ℕ)
    (v : Volume K) : volShape (processPixel g p row col v) = volShape v := by
  unfold processPixel
  exact volShape_foldl addDeposit (fun _ _ => rfl) _ v

theorem volShape_computeBackProjection (g : Geom K) (p : Projection K) (v : Volume K) :
    volShape (computeBackProjection g p v) = volShape v := by
  unfold computeBackProjection
  refine volShape_foldl _ (fun v' row => ?_) _ v
  exact volShape_foldl _ (fun v'' col => volShape_processPixel g p row col v'') _ v'

/-! ### Concrete geometries, rays and projections used by witnesses and
counterexamples -/

/-- The program geometry with axial tables `sin = 1`, `cos = 0` (the values
the real tables take at θ = 90°+k·360°), giving rays parallel to the y
axis from source `(-DOS, 0, 0)`. -/
def geomAxial : Geom ℚ := { programGeomQ with sinT := fun _ => 1, cosT := fun _ => 0 }

/-- A 10000×10000-pixel projection: its corner pixel (0,0) is far outside
the volume's shadow, so the corner ray misses the volume. -/
def projMiss : Projection ℚ :=
  { index := 0, angle := 0, minVal := 0, maxVal := 1, nSidePixels := 10000, pixels := fun _ => 0 }

/-- A 1×1-pixel projection with a mid-range pixel value. -/
def projHalf : Projection ℚ :=
  { index := 0, angle := 0, minVal := 0, maxVal := 1, nSidePixels := 1, pixels := fun _ => 1/2 }

/-! ### C3 -/

/-- C3: for every ray whose computed `aMin` is greater than or equal to its
computed `aMax` (including `aMin = aMax`), the pixel is skipped by the
`continue` branch of `computeBackProjection`: no deposit is produced, the
volume is returned unchanged, and the enclosing fold simply moves on to the
next pixel. -/
theorem c3_miss_skipped (g : Geom ℚ) (p : Projection ℚ) (row col : ℕ) (v : Volume ℚ)
    (h : rayAMin g (rayAt g p row col) ≥ rayAMax g (rayAt g p row col)) :
    pixelDeposits g p row col = [] ∧ processPixel g p row col v = v := by
  have hd : pixelDeposits g p row col = [] := by
    unfold pixelDeposits
    dsimp only
    rw [if_pos h]
  exact ⟨hd, by unfold processPixel; rw [hd]; rfl⟩

/-- Evaluation of the corner ray of the 10000-pixel projection: it leaves
the source heading far below the detector centre and misses the volume. -/
theorem rayAtMiss_eval :
    rayAt geomAxial projMiss 0 0 =
      ⟨⟨-600000, 0, 0⟩, ⟨150000, -424958, -424958⟩⟩ := by
  unfold rayAt getSourcePosition getPixelPosition halfOffset
  simp only [geomAxial, programGeomQ, projMiss]
  norm_num

/-- The corner ray of `projMiss` has `aMin ≥ aMax`. -/
theorem rayAtMiss_ge :
    rayAMin geomAxial (rayAt geomAxial projMiss 0 0) ≥
      rayAMax geomAxial (rayAt geomAxial projMiss 0 0) := by
  rw [rayAtMiss_eval]
  have hpa : getParallelAxis (⟨⟨-600000, 0, 0⟩, ⟨150000, -424958, -424958⟩⟩ : Ray ℚ) = none := by
    unfold getParallelAxis
    norm_num
  unfold rayAMin rayAMax
  rw [hpa]
  unfold getAMin getAMax getSidesIntersections
  rw [show List.finRange 3 = [0, 1, 2] from rfl]
  simp only [List.foldl_cons, List.foldl_nil]
  simp [Point3.coord, firstPlane, lastPlane, programGeomQ, geomAxial]
  norm_num

theorem c3_miss_skipped_witness :
    rayAMin geomAxial (rayAt geomAxial projMiss 0 0) ≥
      rayAMax geomAxial (rayAt geomAxial projMiss 0 0) ∧
    (pixelDeposits geomAxial projMiss 0 0 = [] ∧
      processPixel geomAxial projMiss 0 0 (zeroVolume geomAxial) = zeroVolume geomAxial) :=
  ⟨rayAtMiss_ge, c3_miss_skipped geomAxial projMiss 0 0 (zeroVolume geomAxial) rayAtMiss_ge⟩

/-! ### C10 -/

/-- C10: a `computeBackProjection` call modifies only the contents of the
volume's `coefficients` array: the volume's voxel counts and voxel sizes
are unchanged, and the projection (reached through a `const` pointer,
modelled by the state pair of `backprojectionStep`) is returned untouched.
NULL arguments are not representable in the embedding; the C code exits on
them before touching any state. -/
theorem c10_frame (g : Geom K) (p : Projection K) (v : Volume K) :
    (computeBackProjection g p v).nVoxelsX = v.nVoxelsX ∧
    (computeBackProjection g p v).nVoxelsY = v.nVoxelsY ∧
    (computeBackProjection g p v).nVoxelsZ = v.nVoxelsZ ∧
    (computeBackProjection g p v).voxelSizeX = v.voxelSizeX ∧
    (computeBackProjection g p v).voxelSizeY = v.voxelSizeY ∧
    (computeBackProjection g p v).voxelSizeZ = v.voxelSizeZ ∧
    (backprojectionStep g (p, v)).1 = p := by
  have h := volShape_computeBackProjection g p v
  simp only [volShape, Prod.mk.injEq] at h
  exact ⟨h.1, h.2.1, h.2.2.1, h.2.2.2.1, h.2.2.2.2.1, h.2.2.2.2.2, rfl⟩

/-! ### C4 -/

/-- C4: under the data-model constraints (pixel values within
`[minVal, maxVal]`, `maxVal > minVal`, positive `DOD + DOS`, a square root
that is non-negative on non-negative input) and with the merged α list of
every processed ray non-decreasing, every deposited value is non-negative,
every `computeBackProjection` call only ever increases each coefficient,
and every voxel of the reconstruction from the zero-initialised volume is
non-negative. -/
theorem c4_monotone_nonneg (g : Geom K) (ps : List (Projection K))
    (hdd : 0 < g.dod + g.dos)
    (hsq : ∀ q : K, 0 ≤ q → 0 ≤ g.sqrtFn q)
    (hpix : ∀ p ∈ ps, p.minVal < p.maxVal ∧
      ∀ i : ℕ, p.minVal ≤ p.pixels i ∧ p.pixels i ≤ p.maxVal)
    (hsort : ∀ p ∈ ps, ∀ row < p.nSidePixels, ∀ col < p.nSidePixels,
      (mergedList g (rayAt g p row col)).Sorted (· ≤ ·)) :
    (∀ p ∈ ps, ∀ row < p.nSidePixels, ∀ col < p.nSidePixels,
      ∀ d ∈ pixelDeposits g p row col, 0 ≤ d.2) ∧
    (∀ p ∈ ps, ∀ (v : Volume K) (i : ℤ),
      v.coefficients i ≤ (computeBackProjection g p v).coefficients i) ∧
    (∀ i : ℤ, 0 ≤ (reconstruct g ps).coefficients i) := by
  have hdep : ∀ p ∈ ps, ∀ row < p.nSidePixels, ∀ col < p.nSidePixels,
      ∀ d ∈ pixelDeposits g p row col, 0 ≤ d.2 := by
    intro p hp row hrow col hcol d hd
    unfold pixelDeposits at hd
    dsimp only at hd
    by_cases hmiss : rayAMin g (rayAt g p row col) ≥ rayAMax g (rayAt g p row col)
    · rw [if_pos hmiss] at hd
      simp at hd
    · rw [if_neg hmiss] at hd
      exact segmentDeposits_nonneg g _ _ _ _ _ (hsort p hp row hrow col hcol)
        ((hpix p hp).2 _).1 (hpix p hp).1 hdd hsq d hd
  have hmono : ∀ p ∈ ps, ∀ (v : Volume K) (i : ℤ),
      v.coefficients i ≤ (computeBackProjection g p v).coefficients i := by
    intro p hp v i
    unfold computeBackProjection
    refine foldl_coefficients_le _ _ (fun v' row hrow i' => ?_) v i
    refine foldl_coefficients_le _ _ (fun v'' col hcol i'' => ?_) v' i'
    unfold processPixel
    refine foldl_addDeposit_le _ _ (fun d hd => ?_) i''
    exact hdep p hp row (List.mem_range.mp hrow) col (List.mem_range.mp hcol) d hd
  refine ⟨hdep, hmono, fun i => ?_⟩
  have h0 : (zeroVolume g).coefficients i = 0 := rfl
  unfold reconstruct
  calc (0 : K) = (zeroVolume g).coefficients i := h0.symm
    _ ≤ _ := foldl_coefficients_le _ ps (fun v p hp i' => hmono p hp v i') (zeroVolume g) i

/-- Evaluation of the single ray of the 1×1 projection `projHalf`. -/
theorem rayAtHalf_eval :
    rayAt geomAxial projHalf 0 0 = ⟨⟨-600000, 0, 0⟩, ⟨150000, 0, 0⟩⟩ := by
  unfold rayAt getSourcePosition getPixelPosition halfOffset
  simp only [geomAxial, programGeomQ, projHalf]
  norm_num

/-- The merged α list of the `projHalf` ray is empty (in the exact model the
Y and Z side divisions have zero denominators, `aMax` collapses to `0`, and
all three plane ranges are empty). -/
theorem mergedListHalf_eval :
    mergedList geomAxial (rayAt geomAxial projHalf 0 0) = [] := by
  rw [rayAtHalf_eval]
  have hpa : getParallelAxis (⟨⟨-600000, 0, 0⟩, ⟨150000, 0, 0⟩⟩ : Ray ℚ) = some 1 := by
    unfold getParallelAxis
    norm_num
  have hmin : rayAMin geomAxial ⟨⟨-600000, 0, 0⟩, ⟨150000, 0, 0⟩⟩ = 11/15 := by
    unfold rayAMin
    rw [hpa]
    unfold getAMin getSidesIntersections
    rw [show List.finRange 3 = [0, 1, 2] from rfl]
    simp only [List.foldl_cons, List.foldl_nil]
    simp [Point3.coord, firstPlane, lastPlane, programGeomQ, geomAxial]
    norm_num
  have hmax : rayAMax geomAxial ⟨⟨-600000, 0, 0⟩, ⟨150000, 0, 0⟩⟩ = 0 := by
    unfold rayAMax
    rw [hpa]
    unfold getAMax getSidesIntersections
    rw [show List.finRange 3 = [0, 1, 2] from rfl]
    simp only [List.foldl_cons, List.foldl_nil]
    simp [Point3.coord, firstPlane, lastPlane, programGeomQ, geomAxial]
    norm_num
  unfold mergedList
  rw [hmin, hmax]
  have h0 : axisAlphas geomAxial ⟨⟨-600000, 0, 0⟩, ⟨150000, 0, 0⟩⟩ (11/15) 0 0 = [] := by
    unfold axisAlphas planeRange
    simp only [Point3.coord, geomAxial, programGeomQ, firstPlane, lastPlane, nPlanes]
    norm_num
  have h1 : axisAlphas geomAxial ⟨⟨-600000, 0, 0⟩, ⟨150000, 0, 0⟩⟩ (11/15) 0 1 = [] := by
    unfold axisAlphas planeRange
    simp only [Point3.coord, geomAxial, programGeomQ, firstPlane, lastPlane, nPlanes]
    norm_num
  have h2 : axisAlphas geomAxial ⟨⟨-600000, 0, 0⟩, ⟨150000, 0, 0⟩⟩ (11/15) 0 2 = [] := by
    unfold axisAlphas planeRange
    simp only [Point3.coord, geomAxial, programGeomQ, firstPlane, lastPlane, nPlanes]
    norm_num
  rw [h0, h1, h2]
  simp [mergeIntersections, mergeTwo]

theorem c4_monotone_nonneg_witness :
    0 ≤ (reconstruct geomAxial [projHalf]).coefficients 0 :=
  (c4_monotone_nonneg geomAxial [projHalf]
    (by norm_num [geomAxial, programGeomQ]) (fun _ h => h)
    (by
      intro p hp
      rw [List.mem_singleton] at hp
      subst hp
      exact ⟨by norm_num [projHalf], fun i => by norm_num [projHalf]⟩)
    (by
      intro p hp row hrow col hcol
      rw [List.mem_singleton] at hp
      subst hp
      have hr : row = 0 := by
        simp only [projHalf] at hrow
        omega
      have hc : col = 0 := by
        simp only [projHalf] at hcol
        omega
      subst hr
      subst hc
      rw [mergedListHalf_eval]
      exact List.sorted_nil)).2.2 0

/-! ### C1 and C2: concrete pipeline evaluations -/

/-- A ray that lies exactly in the boundary plane `x = lastPlane[X]` and
crosses the volume from the `y` entry face to the `z`/`y` corner region. -/
def rayGraze : Ray ℚ := ⟨⟨50000, -150000, 0⟩, ⟨50000, 50000, 99000⟩⟩

/-- A ray in the plane `z = 0` that clips the corner of the volume,
entering through the `x` face and exiting through the `y` face. -/
def rayCorner : Ray ℚ := ⟨⟨-150000, 0, 0⟩, ⟨50000, 99000, 0⟩⟩

/-- A short diagonal ray through the centre of the volume. -/
def rayInterior : Ray ℚ := ⟨⟨0, 0, 0⟩, ⟨4, 4, 4⟩⟩

theorem rayGraze_parallel : getParallelAxis rayGraze = some 0 := by
  unfold getParallelAxis rayGraze
  norm_num

theorem rayGraze_aMin : rayAMin programGeomQ rayGraze = 1/2 := by
  unfold rayAMin
  rw [rayGraze_parallel]
  unfold getAMin getSidesIntersections
  rw [show List.finRange 3 = [0, 1, 2] from rfl]
  simp only [List.foldl_cons, List.foldl_nil]
  simp [Point3.coord, firstPlane, lastPlane, programGeomQ, rayGraze]
  norm_num

theorem rayGraze_aMax : rayAMax programGeomQ rayGraze = 50/99 := by
  unfold rayAMax
  rw [rayGraze_parallel]
  unfold getAMax getSidesIntersections
  rw [show List.finRange 3 = [0, 1, 2] from rfl]
  simp only [List.foldl_cons, List.foldl_nil]
  simp [Point3.coord, firstPlane, lastPlane, programGeomQ, rayGraze]
  norm_num

theorem rayGraze_alphasX : axisAlphas programGeomQ rayGraze (1/2) (50/99) 0 = [] := by
  unfold axisAlphas planeRange
  simp only [Point3.coord, programGeomQ, firstPlane, lastPlane, nPlanes, rayGraze]
  norm_num

theorem rayGraze_alphasY : axisAlphas programGeomQ rayGraze (1/2) (50/99) 1 =
    [1001/2000, 501/1000, 1003/2000, 251/500, 201/400, 503/1000, 1007/2000, 63/125,
     1009/2000] := by
  unfold axisAlphas planeRange getPlanePosition
  simp only [Point3.coord, programGeomQ, firstPlane, lastPlane, nPlanes, rayGraze]
  norm_num [arithList]

theorem rayGraze_alphasZ : axisAlphas programGeomQ rayGraze (1/2) (50/99) 2 =
    [248/495, 497/990, 83/165, 499/990] := by
  unfold axisAlphas planeRange getPlanePosition
  simp only [Point3.coord, programGeomQ, firstPlane, lastPlane, nPlanes, rayGraze]
  norm_num [arithList]

theorem rayGraze_merged : mergedList programGeomQ rayGraze =
    [1001/2000, 501/1000, 248/495, 1003/2000, 251/500, 497/990, 201/400, 503/1000, 83/165,
     1007/2000, 63/125, 499/990, 1009/2000] := by
  unfold mergedList
  rw [rayGraze_aMin, rayGraze_aMax, rayGraze_alphasX, rayGraze_alphasY, rayGraze_alphasZ]
  norm_num [mergeIntersections, mergeTwo]

/-- C1 (counterexample): the deposition code contains no clamping, and a
ray lying exactly in the plane `x = lastPlane[X]` deposits with
`voxelX = nVoxels[X] = 1000`, outside `[0, nVoxels[X])`, although the claim
asserts every deposited contribution satisfies the per-axis bounds. -/
theorem c1_counterexample :
    ∃ t ∈ segmentVoxelTriples programGeomQ rayGraze (mergedList programGeomQ rayGraze),
      ¬((0 ≤ t.1 ∧ t.1 < 1000) ∧ (0 ≤ t.2.1 ∧ t.2.1 < 1000) ∧
        (0 ≤ t.2.2 ∧ t.2.2 < 1000)) := by
  refine ⟨(1000, 1, 995), ?_, ?_⟩
  · rw [rayGraze_merged]
    unfold segmentVoxelTriples
    refine List.mem_map.mpr ⟨(1001/2000, 501/1000), ?_, ?_⟩
    · simp
    · unfold segTriple truncToInt
      simp only [Point3.coord, programGeomQ, firstPlane, rayGraze]
      norm_num
  · intro h
    exact absurd h.1.2 (by norm_num)

/-- C1 (amended): the voxel indices of `computeAbsorption` are obtained by
truncating `(position - firstPlane) / voxelSize` with no clamping; whenever
every segment midpoint position lies in `[firstPlane[a], lastPlane[a])` on
every axis, the indices satisfy `0 ≤ v < nVoxels[a]` and the flat
accumulator index lies within the array bounds `[0, Nx*Ny*Nz)`. -/
theorem c1_amended (r : Ray ℚ) (aList : List ℚ)
    (hmid : ∀ pr ∈ aList.zip aList.tail, ∀ a : Fin 3,
      firstPlane programGeomQ a ≤
          r.source.coord a + (pr.2 + pr.1) / 2 * (r.pixel.coord a - r.source.coord a) ∧
        r.source.coord a + (pr.2 + pr.1) / 2 * (r.pixel.coord a - r.source.coord a) <
          lastPlane programGeomQ a) :
    ∀ t ∈ segmentVoxelTriples programGeomQ r aList,
      (0 ≤ t.1 ∧ t.1 < 1000) ∧ (0 ≤ t.2.1 ∧ t.2.1 < 1000) ∧ (0 ≤ t.2.2 ∧ t.2.2 < 1000) ∧
      0 ≤ voxelIndexOf programGeomQ t ∧
      voxelIndexOf programGeomQ t < 1000 * 1000 * 1000 := by
  intro t ht
  unfold segmentVoxelTriples at ht
  simp only [List.mem_map] at ht
  obtain ⟨pr, hpr, rfl⟩ := ht
  have hfp : ∀ a : Fin 3, firstPlane programGeomQ a = -50000 := by
    intro a
    unfold firstPlane programGeomQ
    norm_num
  have hlp : ∀ a : Fin 3, lastPlane programGeomQ a = 50000 := by
    intro a
    unfold lastPlane
    rw [hfp]
    norm_num
  have comp : ∀ a : Fin 3,
      0 ≤ truncToInt ((r.source.coord a +
          (pr.2 + pr.1) / 2 * (r.pixel.coord a - r.source.coord a) -
          firstPlane programGeomQ a) / programGeomQ.voxelSize a) ∧
      truncToInt ((r.source.coord a +
          (pr.2 + pr.1) / 2 * (r.pixel.coord a - r.source.coord a) -
          firstPlane programGeomQ a) / programGeomQ.voxelSize a) < 1000 := by
    intro a
    obtain ⟨h1, h2⟩ := hmid pr hpr a
    rw [hfp a] at h1 ⊢
    rw [hlp a] at h2
    have hvs : programGeomQ.voxelSize a = 100 := rfl
    rw [hvs]
    set pos := r.source.coord a +
      (pr.2 + pr.1) / 2 * (r.pixel.coord a - r.source.coord a) with hpos
    have hq0 : (0 : ℚ) ≤ (pos - -50000) / 100 := by
      apply div_nonneg _ (by norm_num)
      linarith
    unfold truncToInt
    rw [if_pos hq0]
    refine ⟨Int.floor_nonneg.mpr hq0, ?_⟩
    rw [Int.floor_lt]
    push_cast
    rw [div_lt_iff (by norm_num : (0:ℚ) < 100)]
    linarith
  have c0 := comp 0
  have c1 := comp 1
  have c2 := comp 2
  unfold segTriple
  dsimp only
  refine ⟨⟨c0.1, c0.2⟩, ⟨c1.1, c1.2⟩, ⟨c2.1, c2.2⟩, ?_, ?_⟩
  · unfold voxelIndexOf
    dsimp only
    have e0 : ((programGeomQ.nVoxels 0 : ℤ)) = 1000 := rfl
    have e2 : ((programGeomQ.nVoxels 2 : ℤ)) = 1000 := rfl
    rw [e0, e2]
    nlinarith [c0.1, c1.1, c2.1]
  · unfold voxelIndexOf
    dsimp only
    have e0 : ((programGeomQ.nVoxels 0 : ℤ)) = 1000 := rfl
    have e2 : ((programGeomQ.nVoxels 2 : ℤ)) = 1000 := rfl
    rw [e0, e2]
    nlinarith [c0.2, c1.2, c2.2, c0.1, c1.1, c2.1]

/-- The single segment of the interior witness ray occupies the centre
voxel (500, 500, 500). -/
theorem rayInterior_triples :
    segmentVoxelTriples programGeomQ rayInterior [0, 1/2] = [((500 : ℤ), 500, 500)] := by
  unfold segmentVoxelTriples segTriple truncToInt
  simp only [Point3.coord, programGeomQ, firstPlane, rayInterior]
  norm_num

theorem c1_amended_witness :
    ((0 : ℤ) ≤ (500 : ℤ) ∧ (500 : ℤ) < 1000) ∧
    ((0 : ℤ) ≤ (500 : ℤ) ∧ (500 : ℤ) < 1000) ∧
    ((0 : ℤ) ≤ (500 : ℤ) ∧ (500 : ℤ) < 1000) ∧
    0 ≤ voxelIndexOf programGeomQ ((500 : ℤ), 500, 500) ∧
    voxelIndexOf programGeomQ ((500 : ℤ), 500, 500) < 1000 * 1000 * 1000 :=
  c1_amended rayInterior [0, 1/2] (by
    intro pr hpr a
    simp only [List.zip, List.tail_cons, List.zipWith_cons_cons, List.zipWith_nil_right,
      List.mem_singleton] at hpr
    subst hpr
    have hfp : firstPlane programGeomQ a = -50000 := by
      unfold firstPlane programGeomQ
      norm_num
    have hlp : lastPlane programGeomQ a = 50000 := by
      unfold lastPlane
      rw [hfp]
      norm_num
    rw [hfp, hlp]
    fin_cases a <;> (simp [Point3.coord, rayInterior]; norm_num))
    ((500 : ℤ), 500, 500)
    (by rw [rayInterior_triples]; exact List.mem_singleton.mpr rfl)

/-! ### C2 -/

theorem rayCorner_parallel : getParallelAxis rayCorner = some 2 := by
  unfold getParallelAxis rayCorner
  norm_num

theorem rayCorner_aMin : rayAMin programGeomQ rayCorner = 1/2 := by
  unfold rayAMin
  rw [rayCorner_parallel]
  unfold getAMin getSidesIntersections
  rw [show List.finRange 3 = [0, 1, 2] from rfl]
  simp only [List.foldl_cons, List.foldl_nil]
  simp [Point3.coord, firstPlane, lastPlane, programGeomQ, rayCorner]
  norm_num

theorem rayCorner_aMax : rayAMax programGeomQ rayCorner = 50/99 := by
  unfold rayAMax
  rw [rayCorner_parallel]
  unfold getAMax getSidesIntersections
  rw [show List.finRange 3 = [0, 1, 2] from rfl]
  simp only [List.foldl_cons, List.foldl_nil]
  simp [Point3.coord, firstPlane, lastPlane, programGeomQ, rayCorner]
  norm_num

theorem rayCorner_alphasX : axisAlphas programGeomQ rayCorner (1/2) (50/99) 0 =
    [1001/2000, 501/1000, 1003/2000, 251/500, 201/400, 503/1000, 1007/2000, 63/125,
     1009/2000] := by
  unfold axisAlphas planeRange getPlanePosition
  simp only [Point3.coord, programGeomQ, firstPlane, lastPlane, nPlanes, rayCorner]
  norm_num [arithList]

theorem rayCorner_alphasY : axisAlphas programGeomQ rayCorner (1/2) (50/99) 1 =
    [248/495, 497/990, 83/165, 499/990] := by
  unfold axisAlphas planeRange getPlanePosition
  simp only [Point3.coord, programGeomQ, firstPlane, lastPlane, nPlanes, rayCorner]
  norm_num [arithList]

theorem rayCorner_alphasZ : axisAlphas programGeomQ rayCorner (1/2) (50/99) 2 = [] := by
  unfold axisAlphas planeRange
  simp only [Point3.coord, programGeomQ, firstPlane, lastPlane, nPlanes, rayCorner]
  norm_num

theorem rayCorner_merged : mergedList programGeomQ rayCorner =
    [1001/2000, 501/1000, 248/495, 1003/2000, 251/500, 497/990, 201/400, 503/1000, 83/165,
     1007/2000, 63/125, 499/990, 1009/2000] := by
  unfold mergedList
  rw [rayCorner_aMin, rayCorner_aMax, rayCorner_alphasX, rayCorner_alphasY,
    rayCorner_alphasZ]
  norm_num [mergeIntersections, mergeTwo]

/-- C2 (counterexample): the merged α list handed to deposition does not
start with `aMin`: the code never prepends `aMin` (nor appends `aMax`), so
for the corner-clipping ray its first element is the first interior plane
crossing `1001/2000`, strictly greater than `aMin = 1/2`. -/
theorem c2_counterexample :
    (mergedList programGeomQ rayCorner).head? ≠ some (rayAMin programGeomQ rayCorner) := by
  rw [rayCorner_merged, rayCorner_aMin]
  simp only [List.head?_cons, ne_eq, Option.some.injEq]
  norm_num

/-- C2 (amended): for every ray (over a geometry with positive voxel
sizes), the merged α list handed to absorption deposition is non-decreasing
and is a permutation of the concatenation of the three per-axis
intersection lists; in general, for any three individually sorted input
lists, `mergeIntersections` produces a sorted permutation of their
concatenation.  The code does not prepend `aMin` or append `aMax`, so the
endpoints of the merged list are interior plane crossings which can differ
from `aMin` and `aMax`. -/
theorem c2_amended :
    (∀ (g : Geom ℚ) (r : Ray ℚ), (∀ a : Fin 3, 0 < g.voxelSize a) →
        (mergedList g r).Sorted (· ≤ ·) ∧
        List.Perm (mergedList g r)
          (axisAlphas g r (rayAMin g r) (rayAMax g r) 0 ++
            axisAlphas g r (rayAMin g r) (rayAMax g r) 1 ++
            axisAlphas g r (rayAMin g r) (rayAMax g r) 2)) ∧
    (∀ xs ys zs : List ℚ, xs.Sorted (· ≤ ·) → ys.Sorted (· ≤ ·) → zs.Sorted (· ≤ ·) →
        (mergeIntersections xs ys zs).Sorted (· ≤ ·) ∧
        List.Perm (mergeIntersections xs ys zs) (xs ++ ys ++ zs)) :=
  ⟨fun g r hvs => ⟨mergedList_sorted g r hvs, mergeIntersections_perm _ _ _⟩,
   fun xs ys zs hx hy hz =>
     ⟨mergeIntersections_sorted xs ys zs hx hy hz, mergeIntersections_perm xs ys zs⟩⟩

theorem c2_amended_witness :
    (mergeIntersections [(1 : ℚ), 4] [2] [3]).Sorted (· ≤ ·) ∧
    List.Perm (mergeIntersections [(1 : ℚ), 4] [2] [3]) ([1, 4] ++ [2] ++ [3]) :=
  c2_amended.2 [1, 4] [2] [3] (by norm_num [List.sorted_cons]) (by simp) (by simp)

/-! ### C5 -/

/-- C5: with the program's voxel counts (`Nx = Ny = Nz = 1000`), the flat
index layout `idx = y*(Nx*Nz) + z*Nz + x` round-trips: decoding maps every
in-range triple back to itself, the layout is a bijection onto
`[0, Nx*Ny*Nz)`, and the deposition code's accumulator index
(`voxelIndexOf`, line `voxelY*N_VOXELS_X*N_VOXELS_Z + voxelZ*N_VOXELS_Z +
voxelX`) is exactly this layout. -/
theorem c5_index_layout :
    (∀ x y z : ℕ, x < 1000 → y < 1000 → z < 1000 →
        idxDecode (idxLayout 1000 1000 x y z) = (x, y, z) ∧
        idxLayout 1000 1000 x y z < 1000 * 1000 * 1000) ∧
    (∀ i : ℕ, i < 1000 * 1000 * 1000 →
        idxLayout 1000 1000 (idxDecode i).1 (idxDecode i).2.1 (idxDecode i).2.2 = i ∧
        (idxDecode i).1 < 1000 ∧ (idxDecode i).2.1 < 1000 ∧ (idxDecode i).2.2 < 1000) ∧
    (∀ x y z : ℕ,
        voxelIndexOf programGeomQ ((x : ℤ), (y : ℤ), (z : ℤ)) =
          (idxLayout 1000 1000 x y z : ℤ)) := by
  refine ⟨?_, ?_, ?_⟩
  · intro x y z hx hy hz
    unfold idxDecode idxLayout
    refine ⟨?_, by omega⟩
    simp only [Prod.mk.injEq]
    omega
  · intro i hi
    unfold idxDecode idxLayout
    dsimp only
    refine ⟨by omega, by omega, by omega, by omega⟩
  · intro x y z
    unfold voxelIndexOf idxLayout programGeomQ
    push_cast
    ring

theorem c5_index_layout_witness :
    idxDecode (idxLayout 1000 1000 3 4 5) = (3, 4, 5) ∧
    idxLayout 1000 1000 3 4 5 < 1000 * 1000 * 1000 :=
  c5_index_layout.1 3 4 5 (by decide) (by decide) (by decide)

/-! ### C6 -/

/-- C6: for every projection index `i` in `[0, nTheta)`, the tables built
by `initTables` satisfy `sinTable[i] = sin θ_i`, `cosTable[i] = cos θ_i`
with `θ_i = (AP/2 + i*STEP_ANGLE)·π/180`, the plane tables satisfy
`firstPlane[a] = -voxelSize[a]*nVoxels[a]/2` and
`lastPlane[a] = -firstPlane[a]`, and `getSourcePosition` returns
`(-sin θ_i · DOS, cos θ_i · DOS, 0)`. -/
theorem c6_tables (i : ℕ) (hi : i < nTheta) :
    sinTableR i = Real.sin (((360 : ℝ) / 2 + i * 15) * Real.pi / 180) ∧
    cosTableR i = Real.cos (((360 : ℝ) / 2 + i * 15) * Real.pi / 180) ∧
    (∀ a : Fin 3,
      firstPlane programGeomR a =
          -(programGeomR.voxelSize a * (programGeomR.nVoxels a : ℝ)) / 2 ∧
        lastPlane programGeomR a = -(firstPlane programGeomR a)) ∧
    getSourcePosition programGeomR i =
      ⟨-(Real.sin (((360 : ℝ) / 2 + i * 15) * Real.pi / 180)) * 600000,
        Real.cos (((360 : ℝ) / 2 + i * 15) * Real.pi / 180) * 600000, 0⟩ := by
  have harg : thetaOf i = ((360 : ℝ) / 2 + i * 15) * Real.pi / 180 := by
    unfold thetaOf
    push_cast
    ring
  have hs : programGeomR.sinT i = Real.sin (((360 : ℝ) / 2 + i * 15) * Real.pi / 180) := by
    show sinTableR i = _
    rw [sinTableR, harg]
  have hc : programGeomR.cosT i = Real.cos (((360 : ℝ) / 2 + i * 15) * Real.pi / 180) := by
    show cosTableR i = _
    rw [cosTableR, harg]
  refine ⟨by rw [sinTableR, harg], by rw [cosTableR, harg], fun a => ⟨rfl, rfl⟩, ?_⟩
  unfold getSourcePosition
  rw [hs, hc]
  rfl

theorem c6_tables_witness :
    sinTableR 0 = Real.sin (((360 : ℝ) / 2 + (0 : ℕ) * 15) * Real.pi / 180) :=
  (c6_tables 0 (by decide)).1

/-! ### C7 -/

/-- C7 (amended): the pixel position equals the spec formula with the
half-width offset replaced by the value the C code computes in `int`
arithmetic, `dFirstPixel = nSidePixels*PIXEL_SIZE/2 - PIXEL_SIZE/2` with
truncating integer division (`halfOffset`). -/
theorem c7_pixel_position (g : Geom K) (p : Projection K) (row col : ℕ) :
    getPixelPosition g p row col =
      ⟨g.dod * g.sinT p.index + g.cosT p.index *
          (-((halfOffset p.nSidePixels g.pixelSize : ℤ) : K) +
            (col : K) * (g.pixelSize : K)),
        -g.dod * g.cosT p.index + g.sinT p.index *
          (-((halfOffset p.nSidePixels g.pixelSize : ℤ) : K) +
            (col : K) * (g.pixelSize : K)),
        -((halfOffset p.nSidePixels g.pixelSize : ℤ) : K) +
          (row : K) * (g.pixelSize : K)⟩ ∧
    halfOffset p.nSidePixels g.pixelSize =
      ((p.nSidePixels : ℤ) * g.pixelSize) / 2 - g.pixelSize / 2 := by
  constructor
  · unfold getPixelPosition
    dsimp only
    rw [Point3.mk.injEq]
    refine ⟨?_, ?_, ?_⟩ <;> (push_cast; ring)
  · rfl

/-- C7 (counterexample): for an even detector side (`nSidePixels = 2`) the
code's integer-arithmetic offset is `43`, not the spec's real-arithmetic
`42.5`: the z coordinate of pixel (0,0) is `-43`, while the claim's formula
gives `-42.5`. -/
theorem c7_counterexample :
    (getPixelPosition programGeomR projTwoR 0 0).z ≠
      (specPixelPosition programGeomR projTwoR 0 0).z ∧
    (getPixelPosition programGeomR projTwoR 0 0).z = -43 ∧
    (specPixelPosition programGeomR projTwoR 0 0).z = -(85 / 2 : ℝ) := by
  have h1 : (getPixelPosition programGeomR projTwoR 0 0).z = -43 := by
    unfold getPixelPosition projTwoR programGeomR halfOffset
    norm_num
  have h2 : (specPixelPosition programGeomR projTwoR 0 0).z = -(85 / 2 : ℝ) := by
    unfold specPixelPosition projTwoR programGeomR
    norm_num
  refine ⟨?_, h1, h2⟩
  rw [h1, h2]
  norm_num

/-! ### C8 -/

/-- A ray exactly along the z axis: both `d_x = 0` and `d_y = 0`. -/
def rayAlongZ : Ray ℚ := ⟨⟨0, 0, 0⟩, ⟨0, 0, 200⟩⟩

/-- C8 (counterexample): for a ray with `d_x = d_y = 0`, `getParallelAxis`
returns only `X` (the first matching axis), and the Y axis is *not*
excluded from the per-axis side-intersection work — its entries are
computed (with a zero denominator) — contradicting the claim that both X
and Y are detected and excluded. -/
theorem c8_counterexample :
    getParallelAxis rayAlongZ = some 0 ∧
    rayAlongZ.pixel.coord 1 - rayAlongZ.source.coord 1 = 0 ∧
    getSidesIntersections programGeomQ rayAlongZ (getParallelAxis rayAlongZ) 1 ≠ none := by
  have hpa : getParallelAxis rayAlongZ = some 0 := by
    simp [getParallelAxis, rayAlongZ]
  refine ⟨hpa, by simp [rayAlongZ, Point3.coord], ?_⟩
  rw [hpa]
  unfold getSidesIntersections
  simp

/-- C8 (amended): `getParallelAxis` reports only the first axis on which
source and pixel coincide; for a ray with `d_x = 0` it returns `X`, and if
additionally `d_y = 0` the Y axis still takes part in the per-axis
side-intersection work, where its division `(plane - source.y) / d_y` has a
zero denominator. -/
theorem c8_amended (g : Geom ℚ) (r : Ray ℚ) (hx : r.source.x = r.pixel.x) :
    getParallelAxis r = some 0 ∧
    (r.source.y = r.pixel.y →
      getSidesIntersections g r (getParallelAxis r) 1 ≠ none ∧
      r.pixel.coord 1 - r.source.coord 1 = 0) := by
  have hpa : getParallelAxis r = some 0 := by
    unfold getParallelAxis
    rw [if_pos hx]
  refine ⟨hpa, fun hy => ⟨?_, ?_⟩⟩
  · rw [hpa]
    unfold getSidesIntersections
    simp
  · simp [Point3.coord, hy]

theorem c8_amended_witness :
    getParallelAxis rayAlongZ = some 0 ∧
    (rayAlongZ.source.y = rayAlongZ.pixel.y →
      getSidesIntersections programGeomQ rayAlongZ (getParallelAxis rayAlongZ) 1 ≠ none ∧
      rayAlongZ.pixel.coord 1 - rayAlongZ.source.coord 1 = 0) :=
  c8_amended programGeomQ rayAlongZ rfl

/-! ### C9 -/

/-- C9: for every consumed projection with angle in the validated range
`[-360, 360]`, the index stored by the reader equals
`⌊(angleNormalised + 180) / 360 * nTheta⌋ mod nTheta` with
`angleNormalised` the mathematical representative of the angle modulo 360
degrees, and the index always lies in `[0, nTheta)`. -/
theorem c9_reader_index (angle : ℚ) (h1 : -360 ≤ angle) (h2 : angle ≤ 360) :
    readIndex angle =
      ⌊(angleNormalised angle + 180) / 360 * (nTheta : ℚ)⌋ % (nTheta : ℤ) ∧
    0 ≤ readIndex angle ∧ readIndex angle < (nTheta : ℤ) := by
  have hfmod : fmodQ (angle + 360) 360 = angleNormalised angle := by
    unfold fmodQ truncToInt angleNormalised
    have hx : (0 : ℚ) ≤ (angle + 360) / 360 := by
      apply div_nonneg _ (by norm_num)
      linarith
    rw [if_pos hx]
    have he : (angle + 360) / 360 = angle / 360 + 1 := by ring
    rw [he, Int.floor_add_one]
    push_cast
    ring
  have hn0 : 0 ≤ angleNormalised angle := by
    unfold angleNormalised
    linarith [Int.floor_le (angle / 360)]
  have hv0 : (0 : ℚ) ≤ (angleNormalised angle + 180) / 360 * (nTheta : ℚ) := by
    apply mul_nonneg (div_nonneg (by linarith) (by norm_num))
    norm_num
  have hr : readIndex angle =
      ⌊(angleNormalised angle + 180) / 360 * (nTheta : ℚ)⌋ % (nTheta : ℤ) := by
    unfold readIndex truncToInt
    rw [hfmod, if_pos hv0]
    exact Int.tmod_eq_emod (Int.floor_nonneg.mpr hv0) (by norm_num [nTheta])
  refine ⟨hr, ?_, ?_⟩
  · rw [hr]
    exact Int.emod_nonneg _ (by norm_num [nTheta])
  · rw [hr]
    exact Int.emod_lt_of_pos _ (by norm_num [nTheta])

theorem c9_reader_index_witness :
    readIndex 37 =
      ⌊(angleNormalised 37 + 180) / 360 * (nTheta : ℚ)⌋ % (nTheta : ℤ) ∧
    0 ≤ readIndex 37 ∧ readIndex 37 < (nTheta : ℤ) :=
  c9_reader_index 37 (by norm_num) (by norm_num)

end CTBackprojection
